import Mathlib

/-!
Shallow embedding of `lm_eval/tasks/cnn_dailymail.py` (the CNN/DailyMail
summarization task adapter) and proofs about its string processing, document
normalization, prompt rendering, ROUGE scoring and dataset pruning filter.

Python strings are embedded as `List Char`; Python functions that can raise
are embedded as `Option`-valued functions (`none` = the call raises).
-/

/-- A Python string, embedded as its list of characters. -/
abbrev Text := List Char

/-- Characters treated as whitespace by Python's `str.strip()` (ASCII part). -/
def isPySpace (c : Char) : Bool :=
  c = ' ' || c = '\t' || c = '\n' || c = '\r' || c = '\x0b' || c = '\x0c'

/-- Python `str.strip()`: remove leading and trailing whitespace. -/
def pyStrip (s : Text) : Text :=
  ((s.dropWhile isPySpace).reverse.dropWhile isPySpace).reverse

/-- Python `summary.replace(" . ", ".\n")` from `_prepare_summary` (lines 134-136):
scan left to right; at each position, if the literal three-character pattern
`" . "` starts here, emit `".\n"` and skip past the pattern (non-overlapping),
otherwise emit the character and move on. -/
def replaceDot : Text → Text
  | ' ' :: '.' :: ' ' :: rest => '.' :: '\n' :: replaceDot rest
  | c :: rest => c :: replaceDot rest
  | [] => []

/-- Whether the literal three-character pattern `" . "` occurs in the text. -/
def hasDotPat : Text → Bool
  | ' ' :: '.' :: ' ' :: _ => true
  | _ :: rest => hasDotPat rest
  | [] => false

/-- A dataset record with the two fields the task reads (lines 65-95). -/
structure Doc where
  article : Text
  highlights : Text
deriving DecidableEq

/-- The `_process_doc` method (lines 92-95): strip both fields. -/
def processDoc (d : Doc) : Doc :=
  { article := pyStrip d.article, highlights := pyStrip d.highlights }

/-- The `highlights` normalization performed inline in `training_docs` /
`validation_docs` / `test_docs` (lines 65-90): strip, then look at the last
character (`answer[-1]`, which raises `IndexError` on the empty string,
embedded as `none`) and append a terminal `"."` unless one is present. -/
def normalizeHighlights (h : Text) : Option Text :=
  let answer := pyStrip h
  match answer.getLast? with
  | none => none
  | some c => if c ≠ '.' then some (answer ++ ['.']) else some answer

/-- One document's trip through a document iterator: normalize `highlights`,
then run `_process_doc` on the updated record (`none` = the iteration raises). -/
def normalizeDoc (d : Doc) : Option Doc :=
  match normalizeHighlights d.highlights with
  | none => none
  | some h => some (processDoc { article := d.article, highlights := h })

/-- The fixed template appended by `doc_to_text` (lines 97-98). -/
def promptTemplate : Text :=
  "\n\nQuestion: What is a summary of the preceding text?\nAnswer:".data

/-- The `doc_to_text` method: f-string `"{article}\n\nQuestion: ...\nAnswer:"`. -/
def docToText (d : Doc) : Text := d.article ++ promptTemplate

/-- The `doc_to_target` method (lines 100-104): `" " + doc["highlights"]`. -/
def docToTarget (d : Doc) : Text := ' ' :: d.highlights

/-! ### Pruning filter (lines 195-228)

A tokenizer is embedded as the function giving, for a text, the length of
`tokenizer(text).input_ids`. `PruneConfig` holds the loaded tokenizers and the
`PRUNE_MAX_TOKENS` budget used inside `prune`. -/

structure PruneConfig where
  tokenizers : List (Text → Nat)
  maxTokens : Nat

/-- The `_get_prune_text` method (lines 202-203):
`doc_to_text(self._process_doc(sample)[0])`. -/
def prunePromptText (d : Doc) : Text := docToText (processDoc d)

/-- The tokenizer loop inside `_filter` (lines 216-222) on a cache miss:
consult tokenizers in list order, returning `false` at the first one whose
token count exceeds the budget. Also counts tokenizer invocations. -/
def tokenizeCheck (tks : List (Text → Nat)) (maxT : Nat) (text : Text) : Bool × Nat :=
  match tks with
  | [] => (true, 0)
  | tk :: rest =>
    if maxT < tk text then (false, 1)
    else
      let r := tokenizeCheck rest maxT text
      (r.1, r.2 + 1)

/-- The keep/reject decision recomputed directly, with no cache. -/
def directKeep (cfg : PruneConfig) (text : Text) : Bool :=
  (tokenizeCheck cfg.tokenizers cfg.maxTokens text).1

/-- Lookup in the prompt-text-keyed `cache` dict of `prune`. -/
def cacheLookup : List (Text × Bool) → Text → Option Bool
  | [], _ => none
  | (k, v) :: rest, t => if k = t then some v else cacheLookup rest t

/-- One call of `_filter` (lines 212-225): returns the keep/reject boolean, the
updated cache, and the number of tokenizer invocations this call performed. -/
def filterStep (cfg : PruneConfig) (cache : List (Text × Bool)) (d : Doc) :
    Bool × List (Text × Bool) × Nat :=
  let text := prunePromptText d
  match cacheLookup cache text with
  | some b => (b, cache, 0)
  | none =>
    let r := tokenizeCheck cfg.tokenizers cfg.maxTokens text
    (r.1, (text, r.1) :: cache, r.2)

/-- `self.dataset.filter(_filter, ...)` run sequentially over a list of
documents, threading the cache; returns the keep/reject booleans in order. -/
def runFilter (cfg : PruneConfig) : List (Text × Bool) → List Doc → List Bool
  | _, [] => []
  | cache, d :: ds =>
    let s := filterStep cfg cache d
    s.1 :: runFilter cfg s.2.1 ds

/-- The per-variant configuration attributes (lines 52-54 and 231-234):
`PRUNE_TOKENIZERS`, `PRUNE_MAX_TOKENS`, `PRUNE_NUM_PROC`; `none` = Python
`None`, the base-class value of all three. -/
structure TaskConfig where
  pruneTokenizers : Option (List String)
  pruneMaxTokens : Option Nat
  pruneNumProc : Option Nat

/-- The guard in `download` (lines 195-198), embedded verbatim: the source
tests `self.PRUNE_TOKENIZERS is not None and self.PRUNE_TOKENIZERS is not
None` — the same attribute twice; `PRUNE_MAX_TOKENS` is never consulted. -/
def downloadRunsPrune (cfg : TaskConfig) : Bool :=
  cfg.pruneTokenizers.isSome && cfg.pruneTokenizers.isSome

/-- The base task `CNN_DailyMail` (lines 52-54): all three attributes `None`. -/
def baseTaskConfig : TaskConfig :=
  { pruneTokenizers := none, pruneMaxTokens := none, pruneNumProc := none }

/-! ### Model of the external `rouge_score` library

`rouge` (lines 130-145) delegates metric computation to
`rouge_scorer.RougeScorer(["rouge1", "rouge2", "rougeLsum"])` and
`scoring.BootstrapAggregator` from the `rouge_score` package. The definitions
below embed that library's documented algorithms (ASCII fragment):
tokenization keeps maximal lowercase-alphanumeric runs; `rougeN` is an n-gram
overlap F-measure; `rougeL` is an F-measure of the longest common subsequence
of the whole token sequences; `rougeLsum` splits each text on newlines into
sentences and scores a union-LCS over sentences with double-counting
prevention. Scores are embedded as exact rationals. -/

/-- A token produced by the library tokenizer. -/
abbrev Token := List Char

/-- Whether a character survives the library tokenizer's `[^a-z0-9]+` filter. -/
def isLowerAlnum (c : Char) : Bool :=
  ('a' ≤ c && c ≤ 'z') || ('0' ≤ c && c ≤ '9')

/-- The library tokenizer (no stemming): lowercase, then keep the maximal runs
of alphanumeric characters as tokens. -/
def rsTokenize (s : Text) : List Token :=
  ((s.map Char.toLower).splitOnP (fun c => !(isLowerAlnum c))).filter (fun t => !t.isEmpty)

/-- Sentence segmentation used for `rougeLsum`: split the text on newline
characters and drop empty lines. -/
def getSents (t : Text) : List Text :=
  (t.splitOnP (fun c => c = '\n')).filter (fun s => !s.isEmpty)

/-- The library's `scoring.fmeasure`: harmonic mean of precision and recall,
with `0` when both are zero. -/
def fmeasureQ (p r : ℚ) : ℚ := if 0 < p + r then 2 * p * r / (p + r) else 0

/-- Fuel-indexed form of the library's LCS dynamic-programming table (the
recursion consumes one fuel per step and every step shrinks `i + j`, so fuel
`i + j` is always enough; structural recursion on the fuel keeps the function
kernel-computable). -/
def lcsTAux (r c : List Token) : Nat → Nat → Nat → Nat
  | _, 0, _ => 0
  | _, _ + 1, 0 => 0
  | 0, _ + 1, _ + 1 => 0
  | f + 1, i + 1, j + 1 =>
    if r.getD i [] = c.getD j [] then lcsTAux r c f i j + 1
    else max (lcsTAux r c f (i + 1) j) (lcsTAux r c f i (j + 1))

/-- Entry `(i, j)` of the library's LCS dynamic-programming table for the
first `i` tokens of `r` against the first `j` tokens of `c`. -/
def lcsT (r c : List Token) (i j : Nat) : Nat := lcsTAux r c (i + j) i j

/-- Fuel-indexed form of the library's LCS backtracking, fuel as in `lcsTAux`. -/
def lcsIndAux (r c : List Token) : Nat → Nat → Nat → List Nat
  | _, 0, _ => []
  | _, _ + 1, 0 => []
  | 0, _ + 1, _ + 1 => []
  | f + 1, i + 1, j + 1 =>
    if r.getD i [] = c.getD j [] then lcsIndAux r c f i j ++ [i]
    else if lcsT r c i (j + 1) < lcsT r c (i + 1) j then lcsIndAux r c f (i + 1) j
    else lcsIndAux r c f i (j + 1)

/-- The library's LCS backtracking (`_backtrack_norec`): the ascending list of
indices into `r` of one longest common subsequence of the first `i` tokens of
`r` and the first `j` tokens of `c`, with the library's tie-breaking. -/
def lcsInd (r c : List Token) (i j : Nat) : List Nat := lcsIndAux r c (i + j) i j

/-- The library's `_union_lcs`: tokens of the reference sentence `r` whose
index lies in the union, over all candidate sentences, of the backtracked LCS
index sets (sorted ascending, as `sorted(set().union(*lcs_list))`). -/
def unionLcsTokens (r : List Token) (cs : List (List Token)) : List Token :=
  (((List.range r.length).filter
      (fun i => cs.any (fun c => (lcsInd r c r.length c.length).contains i))).map
    (fun i => r.getD i []))

/-- The double-counting-prevention loop of `_summary_level_lcs`: walk the
union-LCS tokens, counting a hit (and consuming one occurrence from each
counter) whenever both counters are still positive. State: remaining reference
token multiset, remaining candidate token multiset, hits so far. -/
def lcsHitsStep : List Token → List Token × List Token × Nat → List Token × List Token × Nat
  | [], st => st
  | t :: rest, (cr, cc, h) =>
    if 0 < cc.count t && 0 < cr.count t then lcsHitsStep rest (cr.erase t, cc.erase t, h + 1)
    else lcsHitsStep rest (cr, cc, h)

/-- Total hits of `_summary_level_lcs`: fold the hit loop over the reference
sentences, seeding the counters with all reference / candidate tokens. -/
def summaryLevelHits (refSents candSents : List (List Token)) : Nat :=
  (refSents.foldl (fun st r => lcsHitsStep (unionLcsTokens r candSents) st)
    (refSents.flatten, candSents.flatten, 0)).2.2

/-- The library's `_summary_level_lcs` F-measure (the `rougeLsum` score of
tokenized sentence lists). -/
def summaryLevelLcsF (refSents candSents : List (List Token)) : ℚ :=
  let m := (refSents.map List.length).sum
  let n := (candSents.map List.length).sum
  if refSents.isEmpty || candSents.isEmpty || m = 0 || n = 0 then 0
  else
    let hits := summaryLevelHits refSents candSents
    fmeasureQ ((hits : ℚ) / (n : ℚ)) ((hits : ℚ) / (m : ℚ))

/-- The `rougeLsum` score of two texts: newline sentence segmentation, then
summary-level union-LCS. -/
def rougeLsumF (target pred : Text) : ℚ :=
  summaryLevelLcsF ((getSents target).map rsTokenize) ((getSents pred).map rsTokenize)

/-- The library's `_score_lcs` F-measure: plain LCS of the two whole token
sequences (what the library computes for rouge type `"rougeL"`). -/
def scoreLcsWholeF (refToks candToks : List Token) : ℚ :=
  if refToks.isEmpty || candToks.isEmpty then 0
  else
    let l := lcsT refToks candToks refToks.length candToks.length
    fmeasureQ ((l : ℚ) / (candToks.length : ℚ)) ((l : ℚ) / (refToks.length : ℚ))

/-- The whole-summary (not per-sentence) LCS overlap score of two texts, the
variant the specification's words describe for the reported `rougeL`. -/
def rougeLWholeF (target pred : Text) : ℚ :=
  scoreLcsWholeF (rsTokenize target) (rsTokenize pred)

/-- The library's `_create_ngrams`: all length-`n` windows of the token list. -/
def ngramsOf (n : Nat) (toks : List Token) : List (List Token) :=
  (List.range (toks.length + 1 - n)).map (fun i => (toks.drop i).take n)

/-- The library's n-gram intersection count: sum over the distinct n-grams of
the target of the smaller multiplicity. -/
def ngramOverlap (a b : List (List Token)) : Nat :=
  (a.dedup.map (fun g => min (a.count g) (b.count g))).sum

/-- The library's `_score_ngrams` F-measure (`rouge1` for `n = 1`, `rouge2`
for `n = 2`), with the `max(count, 1)` denominators of the source. -/
def scoreNgramF (n : Nat) (target pred : Text) : ℚ :=
  let tg := ngramsOf n (rsTokenize target)
  let pg := ngramsOf n (rsTokenize pred)
  let inter := ngramOverlap tg pg
  fmeasureQ ((inter : ℚ) / (max pg.length 1 : ℚ)) ((inter : ℚ) / (max tg.length 1 : ℚ))

/-! ### The repository's `rouge` and `process_results` (lines 130-167) -/

/-- The dict returned by `scorer.score` for the three configured rouge types
`["rouge1", "rouge2", "rougeLsum"]` (line 138). -/
structure RougeDict where
  rouge1 : ℚ
  rouge2 : ℚ
  rougeLsum : ℚ
deriving DecidableEq

/-- One loop iteration of `rouge` (lines 141-144): preprocess both strings
with `_prepare_summary` and score the pair; this is what
`aggregator.add_scores` receives for one zipped `(ref, pred)` pair. -/
def scorePair (ref pred : Text) : RougeDict :=
  let r := replaceDot ref
  let p := replaceDot pred
  { rouge1 := scoreNgramF 1 r p, rouge2 := scoreNgramF 2 r p, rougeLsum := rougeLsumF r p }

/-- The per-pair score dicts handed to the `BootstrapAggregator` by
`rouge(refs, preds)`, in loop order: `zip` pairs the lists positionally and
stops at the shorter one. -/
def rougeScoredPairs (refs preds : List Text) : List RougeDict :=
  (refs.zip preds).map (fun rp => scorePair rp.1 rp.2)

/-- Outcome of `rouge(refs, preds)` as observable without fixing the
bootstrap's random source: `aggregate()` of an aggregator that received no
scores returns an empty dict and the final `result[type]` lookup raises
(`none`); otherwise the aggregator holds exactly the listed per-pair scores. -/
def rougeOutcome (refs preds : List Text) : Option (List RougeDict) :=
  match rougeScoredPairs refs preds with
  | [] => none
  | l => some l

/-- The value of `rouge([ref], [pred])` (the call shape `process_results`
uses, line 160): a bootstrap resample of a one-element sample is that element,
so every percentile — in particular `mid` — is the single score, and the
result is the pair's score dict scaled to a percentage (line 145). -/
def rougeSingle (ref pred : Text) : RougeDict :=
  let s := scorePair ref pred
  { rouge1 := 100 * s.rouge1, rouge2 := 100 * s.rouge2, rougeLsum := 100 * s.rougeLsum }

/-- The dict returned by `process_results` (lines 167-171): note line 166
binds the key `"rougeL"` to `rouge_score["rougeLsum"]`. -/
structure ProcessedResult where
  rouge1 : ℚ
  rouge2 : ℚ
  rougeL : ℚ
deriving DecidableEq

/-- The `process_results` method (lines 147-171): `results[0]` raises on an
empty list (`none`); otherwise strip the first completion, score it against
`doc["highlights"]` with `rouge`, and report the three keys, taking the
reported `rougeL` from the scorer's `rougeLsum` entry. -/
def processResults (d : Doc) (results : List Text) : Option ProcessedResult :=
  match results with
  | [] => none
  | r :: _ =>
    let completion := pyStrip r
    let sc := rougeSingle d.highlights completion
    some { rouge1 := sc.rouge1, rouge2 := sc.rouge2, rougeL := sc.rougeLsum }

/-! ### Helper lemmas about the string primitives -/

theorem head?_dropWhile_not {p : Char → Bool} :
    ∀ (l : Text) (c : Char), (l.dropWhile p).head? = some c → p c = false := by
  intro l
  induction l with
  | nil => intro c hc; simp [List.dropWhile] at hc
  | cons a t ih =>
    intro c hc
    rw [List.dropWhile_cons] at hc
    by_cases ha : p a
    · rw [if_pos ha] at hc
      exact ih c hc
    · rw [if_neg ha] at hc
      simp at hc
      subst hc
      simpa using ha

theorem dropWhile_eq_self_of_head {p : Char → Bool} (l : Text)
    (h : ∀ c, l.head? = some c → p c = false) : l.dropWhile p = l := by
  cases l with
  | nil => rfl
  | cons a t => rw [List.dropWhile_cons, if_neg (by simp [h a rfl])]

theorem head?_of_isPrefix {l m : Text} {c : Char} (hpre : m <+: l) (hm : m.head? = some c) :
    l.head? = some c := by
  obtain ⟨t, rfl⟩ := hpre
  cases m with
  | nil => simp at hm
  | cons a s => simpa using hm

/-- The last character of a stripped string is never whitespace. -/
theorem pyStrip_getLast_not_space (s : Text) (c : Char)
    (h : (pyStrip s).getLast? = some c) : isPySpace c = false := by
  unfold pyStrip at h
  rw [← List.head?_reverse, List.reverse_reverse] at h
  exact head?_dropWhile_not _ c h

/-- The first character of a stripped string is never whitespace. -/
theorem pyStrip_head_not_space (s : Text) (c : Char)
    (h : (pyStrip s).head? = some c) : isPySpace c = false := by
  have hsuf : ((s.dropWhile isPySpace).reverse.dropWhile isPySpace) <:+
      (s.dropWhile isPySpace).reverse := List.dropWhile_suffix _
  have hpre : pyStrip s <+: s.dropWhile isPySpace := by
    unfold pyStrip
    apply List.reverse_suffix.mp
    rw [List.reverse_reverse]
    exact hsuf
  exact head?_dropWhile_not _ c (head?_of_isPrefix hpre h)

/-- Stripping fixes a nonempty string that neither starts nor ends in
whitespace. -/
theorem pyStrip_eq_self (l : Text)
    (hhead : ∀ c, l.head? = some c → isPySpace c = false)
    (hlast : ∀ c, l.getLast? = some c → isPySpace c = false) : pyStrip l = l := by
  unfold pyStrip
  rw [dropWhile_eq_self_of_head l hhead]
  rw [dropWhile_eq_self_of_head l.reverse (by
    intro c hc
    rw [List.head?_reverse] at hc
    exact hlast c hc)]
  exact List.reverse_reverse l


/-- Texts without an occurrence of the pattern `" . "` pass through
`replaceDot` unchanged. -/
theorem replaceDot_eq_self_of_no_pat :
    ∀ l : Text, hasDotPat l = false → replaceDot l = l := by
  intro l
  induction l using replaceDot.induct with
  | case1 rest ih => intro h; simp [hasDotPat] at h
  | case2 c rest hne ih =>
    intro h
    rw [hasDotPat.eq_2 c rest hne] at h
    rw [replaceDot.eq_2 c rest hne, ih h]
  | case3 => intro _; rfl

/-! ### Helper lemmas about the pruning filter -/

/-- The loop of `_filter` keeps a text exactly when every tokenizer stays
within the budget. -/
theorem tokenizeCheck_fst_iff (maxT : Nat) (text : Text) :
    ∀ tks : List (Text → Nat),
      ((tokenizeCheck tks maxT text).1 = true ↔ ∀ tk ∈ tks, tk text ≤ maxT) := by
  intro tks
  induction tks with
  | nil => simp [tokenizeCheck]
  | cons tk rest ih =>
    rw [tokenizeCheck]
    by_cases h : maxT < tk text
    · rw [if_pos h]
      simp only [List.mem_cons]
      constructor
      · intro hfalse; cases hfalse
      · intro hall
        exact absurd (hall tk (Or.inl rfl)) (by omega)
    · rw [if_neg h]
      simp only [List.mem_cons]
      constructor
      · intro hrest tk2 hm
        rcases hm with hm | hm
        · subst hm; omega
        · exact (ih.mp hrest) tk2 hm
      · intro hall
        exact ih.mpr (fun tk2 hm => hall tk2 (Or.inr hm))

/-- Number of tokenizer invocations of the `_filter` loop: all of them when
every tokenizer passes, otherwise one per passing tokenizer up to and
including the first offender (list order, short-circuit). -/
theorem tokenizeCheck_snd_eq (maxT : Nat) (text : Text) :
    ∀ tks : List (Text → Nat),
      (tokenizeCheck tks maxT text).2 =
        if ∀ tk ∈ tks, tk text ≤ maxT then tks.length
        else (tks.takeWhile (fun tk => decide (tk text ≤ maxT))).length + 1 := by
  intro tks
  induction tks with
  | nil => simp [tokenizeCheck]
  | cons tk rest ih =>
    by_cases h : maxT < tk text
    · have hnall : ¬ ∀ tk2 ∈ tk :: rest, tk2 text ≤ maxT := by
        clear ih
        intro hall
        have := hall tk (List.mem_cons_self tk rest)
        omega
      rw [tokenizeCheck, if_pos h, if_neg hnall]
      have hd : (decide (tk text ≤ maxT)) = false := by
        clear hnall ih
        simp only [decide_eq_false_iff_not]
        omega
      simp [List.takeWhile_cons, hd]
    · have hd : (decide (tk text ≤ maxT)) = true := by
        clear ih
        simp only [decide_eq_true_eq]
        omega
      rw [tokenizeCheck, if_neg h]
      by_cases hall : ∀ tk2 ∈ rest, tk2 text ≤ maxT
      · have hall2 : ∀ tk2 ∈ tk :: rest, tk2 text ≤ maxT := by
          clear ih
          intro tk2 hm
          rcases List.mem_cons.mp hm with hm | hm
          · subst hm; omega
          · exact hall tk2 hm
        rw [if_pos hall2]
        simp only [ih, if_pos hall]
        simp
      · have hnall2 : ¬ ∀ tk2 ∈ tk :: rest, tk2 text ≤ maxT := by
          intro hall2
          exact hall (fun tk2 hm => hall2 tk2 (List.mem_cons.mpr (Or.inr hm)))
        rw [if_neg hnall2]
        simp only [ih, if_neg hall]
        simp [List.takeWhile_cons, hd]

/-- A cache is consistent when every stored verdict equals the direct
recomputation for its key. -/
def cacheOK (cfg : PruneConfig) (cache : List (Text × Bool)) : Prop :=
  ∀ t b, cacheLookup cache t = some b → b = directKeep cfg t

theorem cacheOK_nil (cfg : PruneConfig) : cacheOK cfg [] := by
  intro t b hb
  simp [cacheLookup] at hb

theorem cacheLookup_nil (t : Text) : cacheLookup [] t = none := rfl

theorem cacheLookup_cons (k : Text) (v : Bool) (rest : List (Text × Bool)) (t : Text) :
    cacheLookup ((k, v) :: rest) t = if k = t then some v else cacheLookup rest t := rfl

/-- A `_filter` call on a consistent cache returns the direct decision and
leaves the cache consistent. -/
theorem filterStep_of_cacheOK (cfg : PruneConfig) (cache : List (Text × Bool)) (d : Doc)
    (hok : cacheOK cfg cache) :
    (filterStep cfg cache d).1 = directKeep cfg (prunePromptText d)
    ∧ cacheOK cfg (filterStep cfg cache d).2.1 := by
  unfold filterStep
  cases hc : cacheLookup cache (prunePromptText d) with
  | none =>
    simp only [hc]
    refine ⟨rfl, ?_⟩
    intro t b hb
    rw [cacheLookup_cons] at hb
    by_cases ht : prunePromptText d = t
    · rw [if_pos ht] at hb
      cases hb
      rw [← ht]
      rfl
    · rw [if_neg ht] at hb
      exact hok t b hb
  | some b =>
    simp only [hc]
    exact ⟨hok _ b hc, hok⟩

/-- Running the filter from any consistent cache returns exactly the direct
decisions, in order. -/
theorem runFilter_eq_direct (cfg : PruneConfig) :
    ∀ (docs : List Doc) (cache : List (Text × Bool)), cacheOK cfg cache →
      runFilter cfg cache docs = docs.map (fun d => directKeep cfg (prunePromptText d)) := by
  intro docs
  induction docs with
  | nil => intro cache _; rfl
  | cons d ds ih =>
    intro cache hok
    obtain ⟨h1, h2⟩ := filterStep_of_cacheOK cfg cache d hok
    rw [runFilter, List.map_cons, ih _ h2, h1]

/-- After any `_filter` call, the cache holds that call's verdict under that
call's prompt text. -/
theorem filterStep_cache_hit (cfg : PruneConfig) (cache : List (Text × Bool)) (d : Doc) :
    cacheLookup (filterStep cfg cache d).2.1 (prunePromptText d) = some (filterStep cfg cache d).1 := by
  unfold filterStep
  cases hc : cacheLookup cache (prunePromptText d) with
  | none =>
    simp only [hc]
    rw [cacheLookup_cons, if_pos rfl]
  | some b =>
    simp only [hc]

/-- A `_filter` call whose prompt text is already cached performs zero
tokenizer invocations and returns the cached verdict. -/
theorem filterStep_cached (cfg : PruneConfig) (cache : List (Text × Bool)) (d : Doc) (b : Bool)
    (hc : cacheLookup cache (prunePromptText d) = some b) :
    filterStep cfg cache d = (b, cache, 0) := by
  unfold filterStep
  simp only [hc]

/-! ### Helper lemmas about `zip` truncation -/

theorem zip_append_of_le {α β : Type} :
    ∀ (a : List α) (b extra : List β), a.length ≤ b.length → a.zip (b ++ extra) = a.zip b := by
  intro a
  induction a with
  | nil => intro b extra _; simp
  | cons x xs ih =>
    intro b extra hle
    cases b with
    | nil => simp at hle
    | cons y ys =>
      simp only [List.cons_append, List.zip_cons_cons]
      rw [ih ys extra (by simpa using hle)]

theorem zip_getElem? {α β : Type} :
    ∀ (a : List α) (b : List β) (i : Nat) (x : α) (y : β),
      a[i]? = some x → b[i]? = some y → (a.zip b)[i]? = some (x, y) := by
  intro a
  induction a with
  | nil => intro b i x y hx _; simp at hx
  | cons u us ih =>
    intro b i x y hx hy
    cases b with
    | nil => simp at hy
    | cons v vs =>
      cases i with
      | zero =>
        simp only [List.getElem?_cons_zero, Option.some_inj] at hx hy
        simp [List.zip_cons_cons, hx, hy]
      | succ j =>
        simp only [List.getElem?_cons_succ] at hx hy
        simpa [List.zip_cons_cons] using ih vs j x y hx hy

/-! ### Claim theorems -/

/-- C1: the claim says pruning runs if and only if both `PRUNE_TOKENIZERS`
and `PRUNE_MAX_TOKENS` are non-null. The code's guard tests
`PRUNE_TOKENIZERS is not None` twice and never consults `PRUNE_MAX_TOKENS`,
so a variant with a tokenizer list but a null token budget still calls
`prune()` (which then evaluates `len(ids) > None` and raises): the guard
depends only on `PRUNE_TOKENIZERS`. -/
theorem c1_download_guard_ignores_max_tokens :
    downloadRunsPrune { pruneTokenizers := some ["PY007/TinyLlama-1.1B-Chat-v0.3"],
                        pruneMaxTokens := none, pruneNumProc := none } = true
    ∧ ∀ cfg : TaskConfig, downloadRunsPrune cfg = cfg.pruneTokenizers.isSome :=
  ⟨rfl, fun _ => Bool.and_self _⟩

/-- C2 counterexample: the claim (and the spec's testable property 5) says
the input `"A . B ."` preprocesses to `"A.\nB."`; Python's left-to-right
replacement leaves the final two characters `" ."` alone because they are not
followed by a space, so the result is `"A.\nB ."`, not `"A.\nB."`. -/
theorem c2_example_counterexample :
    replaceDot "A . B .".data ≠ "A.\nB.".data := by decide

/-- C2 amended: `_prepare_summary` replaces every left-to-right
non-overlapping occurrence of the literal three-character substring `" . "`
with `".\n"` and changes nothing else (a text without the pattern is returned
unchanged, and at a pattern occurrence exactly the three pattern characters
are consumed); for the input `"A . B ."` the result is `"A.\nB ."` — the
trailing `" ."` is not an occurrence of the padded pattern. -/
theorem c2_replace_only_padded_pattern :
    replaceDot "A . B .".data = "A.\nB .".data
    ∧ (∀ l : Text, hasDotPat l = false → replaceDot l = l)
    ∧ (∀ l : Text, replaceDot (' ' :: '.' :: ' ' :: l) = '.' :: '\n' :: replaceDot l) :=
  ⟨by decide, replaceDot_eq_self_of_no_pat, fun _ => rfl⟩

theorem c2_replace_only_padded_pattern_witness :
    hasDotPat "No pattern here.".data = false
    ∧ replaceDot "No pattern here.".data = "No pattern here.".data :=
  ⟨by decide, c2_replace_only_padded_pattern.2.1 "No pattern here.".data (by decide)⟩

/-- C3: the claim (and the spec) says normalization of a document whose
`highlights` strips to the empty string must not raise. In the source,
`answer[-1]` is evaluated before any emptiness check, so such a document
makes the document iterators raise `IndexError` (embedded: the normalization
returns `none`): the error branch is reachable and unguarded. -/
theorem c3_empty_highlights_normalization_error :
    pyStrip "   ".data = []
    ∧ normalizeDoc { article := "Some article".data, highlights := "   ".data } = none :=
  ⟨by decide, by decide⟩

unseal Rat.mul Rat.inv Rat.add Rat.sub Nat.gcd in
/-- C4 counterexample: for the document with `highlights` `"a b . c d."` and
the completion `"c d . a b."`, the value `process_results` reports under
`rougeL` is `100` (the sentence-split union-LCS `rougeLsum` score of the
preprocessed strings), while the whole-summary single-sequence LCS F-measure
of the same preprocessed strings is `50`: the reported metric is not the
whole-summary LCS the claim describes. -/
theorem c4_rougeL_counterexample :
    (processResults { article := "art".data, highlights := "a b . c d.".data }
        ["c d . a b.".data]).map (fun s => s.rougeL) = some 100
    ∧ 100 * rougeLWholeF (replaceDot (pyStrip "a b . c d.".data))
        (replaceDot (pyStrip "c d . a b.".data)) = 50
    ∧ (processResults { article := "art".data, highlights := "a b . c d.".data }
        ["c d . a b.".data]).map (fun s => s.rougeL)
      ≠ some (100 * rougeLWholeF (replaceDot (pyStrip "a b . c d.".data))
          (replaceDot (pyStrip "c d . a b.".data))) :=
  ⟨by decide, by decide, by decide⟩

/-- C4 amended: the metric reported under the name `rougeL` is the scorer's
`rougeLsum` entry — the sentence-level union-LCS F-measure computed over the
newline-separated sentences of the preprocessed reference and of the stripped,
preprocessed completion — not the whole-summary single-sequence LCS. -/
theorem c4_reported_rougeL_is_sentence_lcs (d : Doc) (r : Text) (rest : List Text) :
    (processResults d (r :: rest)).map (fun s => s.rougeL)
      = some (100 * rougeLsumF (replaceDot d.highlights) (replaceDot (pyStrip r)))
    ∧ rougeLsumF (replaceDot d.highlights) (replaceDot (pyStrip r))
      = summaryLevelLcsF ((getSents (replaceDot d.highlights)).map rsTokenize)
          ((getSents (replaceDot (pyStrip r))).map rsTokenize) :=
  ⟨rfl, rfl⟩

/-- C5: the memoized `_filter` returns for each document exactly the
keep/reject boolean of the direct cache-free recomputation, and a second
`_filter` call whose rendered prompt text equals a previous call's prompt
text performs zero tokenizer invocations, returns the same verdict, and
leaves the cache unchanged. -/
theorem c5_prune_cache_equiv (cfg : PruneConfig) (docs : List Doc) :
    runFilter cfg [] docs = docs.map (fun d => directKeep cfg (prunePromptText d))
    ∧ ∀ (cache : List (Text × Bool)) (d1 d2 : Doc),
        prunePromptText d1 = prunePromptText d2 →
        filterStep cfg (filterStep cfg cache d1).2.1 d2
          = ((filterStep cfg cache d1).1, (filterStep cfg cache d1).2.1, 0) := by
  constructor
  · exact runFilter_eq_direct cfg docs [] (cacheOK_nil cfg)
  · intro cache d1 d2 heq
    have hhit := filterStep_cache_hit cfg cache d1
    rw [heq] at hhit
    exact filterStep_cached cfg _ d2 _ hhit

/-- Concrete pruning configuration for the C5 witness: one tokenizer counting
characters, budget 70. -/
def cfgW : PruneConfig := { tokenizers := [fun t => t.length], maxTokens := 70 }

def docW1 : Doc := { article := "ab ".data, highlights := "x.".data }

def docW2 : Doc := { article := " ab".data, highlights := "y.".data }

def docW3 : Doc := { article := List.replicate 40 'z', highlights := "z.".data }

theorem c5_prune_cache_equiv_witness :
    runFilter cfgW [] [docW1, docW3, docW2]
      = [docW1, docW3, docW2].map (fun d => directKeep cfgW (prunePromptText d))
    ∧ filterStep cfgW (filterStep cfgW [] docW1).2.1 docW2
        = ((filterStep cfgW [] docW1).1, (filterStep cfgW [] docW1).2.1, 0)
    ∧ runFilter cfgW [] [docW1, docW3, docW2] = [true, false, true]
    ∧ (filterStep cfgW (filterStep cfgW [] docW1).2.1 docW2).2.2 = 0 :=
  ⟨(c5_prune_cache_equiv cfgW [docW1, docW3, docW2]).1,
   (c5_prune_cache_equiv cfgW [docW1, docW3, docW2]).2 [] docW1 docW2 (by decide),
   by decide,
   by decide⟩

/-- C6: the cache-free filter decision keeps a text iff its token count is at
most `PRUNE_MAX_TOKENS` under every configured tokenizer; a text of exactly
the budget under every tokenizer is kept, any tokenizer producing budget-plus-
one rejects it, and the invocation count shows list-order short-circuiting:
all tokenizers run when all pass, otherwise exactly the passing ones up to
and including the first offender. -/
theorem c6_prune_keep_iff_within_budget (cfg : PruneConfig) (text : Text) :
    (directKeep cfg text = true ↔ ∀ tk ∈ cfg.tokenizers, tk text ≤ cfg.maxTokens)
    ∧ ((∀ tk ∈ cfg.tokenizers, tk text = cfg.maxTokens) → directKeep cfg text = true)
    ∧ (∀ tk ∈ cfg.tokenizers, tk text = cfg.maxTokens + 1 → directKeep cfg text = false)
    ∧ (tokenizeCheck cfg.tokenizers cfg.maxTokens text).2 =
        (if ∀ tk ∈ cfg.tokenizers, tk text ≤ cfg.maxTokens then cfg.tokenizers.length
         else (cfg.tokenizers.takeWhile (fun tk => decide (tk text ≤ cfg.maxTokens))).length + 1) := by
  refine ⟨tokenizeCheck_fst_iff cfg.maxTokens text cfg.tokenizers, ?_, ?_,
    tokenizeCheck_snd_eq cfg.maxTokens text cfg.tokenizers⟩
  · intro hall
    exact (tokenizeCheck_fst_iff cfg.maxTokens text cfg.tokenizers).mpr
      (fun tk hm => le_of_eq (hall tk hm))
  · intro tk hm htk
    cases hdk : directKeep cfg text with
    | false => rfl
    | true =>
      have hle := (tokenizeCheck_fst_iff cfg.maxTokens text cfg.tokenizers).mp hdk tk hm
      exact absurd hle (by omega)

theorem c6_prune_keep_iff_within_budget_witness :
    directKeep { tokenizers := [fun _ => 3], maxTokens := 3 } "x".data = true
    ∧ directKeep { tokenizers := [fun _ => 4], maxTokens := 3 } "x".data = false :=
  ⟨(c6_prune_keep_iff_within_budget { tokenizers := [fun _ => 3], maxTokens := 3 } "x".data).2.1
      (by intro tk hm; rw [List.mem_singleton] at hm; subst hm; rfl),
   (c6_prune_keep_iff_within_budget { tokenizers := [fun _ => 4], maxTokens := 3 } "x".data).2.2.1
      (fun _ => 4) (by simp) rfl⟩

/-- C7: for a document whose stripped `highlights` is non-empty, the
normalized `highlights` yielded by the document iterators is non-empty and
ends with a period; when the stripped `highlights` does not already end in
`"."`, the normalized value is exactly the stripped text plus one trailing
`"."`, and the character before that period (the stripped text's last
character) is neither a period nor whitespace. -/
theorem c7_normalized_highlights_terminal_period (a h : Text) (hne : pyStrip h ≠ []) :
    ∃ outd : Doc, normalizeDoc { article := a, highlights := h } = some outd
      ∧ outd.highlights ≠ []
      ∧ outd.highlights.getLast? = some '.'
      ∧ ((pyStrip h).getLast? ≠ some '.' →
          outd.highlights = pyStrip h ++ ['.']
          ∧ ∀ c, (pyStrip h).getLast? = some c → c ≠ '.' ∧ isPySpace c = false) := by
  cases hl : (pyStrip h).getLast? with
  | none => exact absurd (List.getLast?_eq_none_iff.mp hl) hne
  | some c =>
    by_cases hcdot : c = '.'
    · subst hcdot
      have h1 : normalizeHighlights h = some (pyStrip h) := by
        unfold normalizeHighlights
        simp only [hl]
        rw [if_neg (by simp)]
      have hfix : pyStrip (pyStrip h) = pyStrip h := by
        apply pyStrip_eq_self
        · exact fun c2 hc2 => pyStrip_head_not_space h c2 hc2
        · exact fun c2 hc2 => pyStrip_getLast_not_space h c2 hc2
      have h2 : normalizeDoc { article := a, highlights := h }
          = some { article := pyStrip a, highlights := pyStrip h } := by
        unfold normalizeDoc
        simp only [h1]
        unfold processDoc
        simp only [hfix]
      exact ⟨{ article := pyStrip a, highlights := pyStrip h }, h2, hne, hl,
        fun hne2 => absurd rfl hne2⟩
    · have h1 : normalizeHighlights h = some (pyStrip h ++ ['.']) := by
        unfold normalizeHighlights
        simp only [hl]
        rw [if_pos hcdot]
      have hconc : (pyStrip h ++ ['.']).getLast? = some '.' := List.getLast?_concat _
      have hfix : pyStrip (pyStrip h ++ ['.']) = pyStrip h ++ ['.'] := by
        apply pyStrip_eq_self
        · intro c2 hc2
          have hhd : (pyStrip h).head? = some c2 := by
            cases hph : pyStrip h with
            | nil => exact absurd hph hne
            | cons x xs =>
              rw [hph] at hc2
              simpa using hc2
          exact pyStrip_head_not_space h c2 hhd
        · intro c2 hc2
          rw [hconc] at hc2
          cases hc2
          decide
      have h2 : normalizeDoc { article := a, highlights := h }
          = some { article := pyStrip a, highlights := pyStrip h ++ ['.'] } := by
        unfold normalizeDoc
        simp only [h1]
        unfold processDoc
        simp only [hfix]
      refine ⟨{ article := pyStrip a, highlights := pyStrip h ++ ['.'] }, h2, by simp, hconc, ?_⟩
      intro _
      refine ⟨rfl, ?_⟩
      intro c2 hc2
      cases hc2
      exact ⟨hcdot, pyStrip_getLast_not_space h c hl⟩

theorem c7_normalized_highlights_terminal_period_witness :
    pyStrip "Hi there".data ≠ []
    ∧ ∃ outd : Doc,
        normalizeDoc { article := " An article ".data, highlights := "Hi there".data } = some outd
        ∧ outd.highlights ≠ []
        ∧ outd.highlights.getLast? = some '.'
        ∧ ((pyStrip "Hi there".data).getLast? ≠ some '.' →
            outd.highlights = pyStrip "Hi there".data ++ ['.']
            ∧ ∀ c, (pyStrip "Hi there".data).getLast? = some c →
                c ≠ '.' ∧ isPySpace c = false) :=
  ⟨by decide,
   c7_normalized_highlights_terminal_period " An article ".data "Hi there".data (by decide)⟩

/-- C8: for every document, `doc_to_text` is the article followed by the
exact literal template, and `doc_to_target` is exactly one leading space
character followed by the document's `highlights`. -/
theorem c8_prompt_and_target_format (d : Doc) :
    docToText d = d.article ++ "\n\nQuestion: What is a summary of the preceding text?\nAnswer:".data
    ∧ docToTarget d = ' ' :: d.highlights :=
  ⟨rfl, rfl⟩

/-- C9: `process_results` strips the first completion before scoring: on a
non-empty results list it reports the `rouge([ref], [completion])` values for
`completion = results[0].strip()` (and the reported `rougeL` key is the
scorer's `rougeLsum` entry); on an empty results list, `results[0]` raises. -/
theorem c9_completion_stripped_before_scoring (d : Doc) (r : Text) (rest : List Text) :
    processResults d (r :: rest)
      = some { rouge1 := (rougeSingle d.highlights (pyStrip r)).rouge1,
               rouge2 := (rougeSingle d.highlights (pyStrip r)).rouge2,
               rougeL := (rougeSingle d.highlights (pyStrip r)).rougeLsum }
    ∧ processResults d [] = none :=
  ⟨rfl, rfl⟩

theorem zip_append_left_of_le {α β : Type} :
    ∀ (a : List α) (b : List β) (extra : List α), b.length ≤ a.length →
      (a ++ extra).zip b = a.zip b := by
  intro a
  induction a with
  | nil =>
    intro b extra hle
    have : b = [] := List.eq_nil_of_length_eq_zero (by simpa using hle)
    subst this
    simp
  | cons x xs ih =>
    intro b extra hle
    cases b with
    | nil => simp
    | cons y ys =>
      simp only [List.cons_append, List.zip_cons_cons]
      rw [ih ys extra (by simpa using hle)]

/-- C10 amended: `rouge(refs, preds)` hands the aggregator exactly the scores
of the first `min |refs| |preds|` positionally paired `(ref, pred)` pairs;
excess elements of the longer list are silently ignored and unequal lengths
raise no length error — but when the shorter list is empty, no scores reach
the aggregator, `aggregate()` returns an empty dict and the final
`result[type]` lookup raises (embedded as the `none` outcome). -/
theorem c10_rouge_zip_truncation (refs preds : List Text) :
    (rougeScoredPairs refs preds).length = min refs.length preds.length
    ∧ (refs.length ≤ preds.length →
        ∀ extra : List Text, rougeScoredPairs refs (preds ++ extra) = rougeScoredPairs refs preds)
    ∧ (preds.length ≤ refs.length →
        ∀ extra : List Text, rougeScoredPairs (refs ++ extra) preds = rougeScoredPairs refs preds)
    ∧ (rougeOutcome refs preds = none ↔ refs = [] ∨ preds = [])
    ∧ (∀ (i : Nat) (x y : Text), refs[i]? = some x → preds[i]? = some y →
        (rougeScoredPairs refs preds)[i]? = some (scorePair x y)) := by
  refine ⟨?_, ?_, ?_, ?_, ?_⟩
  · simp [rougeScoredPairs, List.length_zip refs preds]
  · intro hle extra
    unfold rougeScoredPairs
    rw [zip_append_of_le refs preds extra hle]
  · intro hle extra
    unfold rougeScoredPairs
    rw [zip_append_left_of_le refs preds extra hle]
  · constructor
    · intro hnone
      cases hsp : rougeScoredPairs refs preds with
      | nil =>
        have hlen := congrArg List.length hsp
        unfold rougeScoredPairs at hlen
        rw [List.length_map, List.length_zip refs preds] at hlen
        simp only [List.length_nil] at hlen
        rcases Nat.min_eq_zero_iff.mp hlen with hz | hz
        · exact Or.inl (List.eq_nil_of_length_eq_zero hz)
        · exact Or.inr (List.eq_nil_of_length_eq_zero hz)
      | cons s l =>
        unfold rougeOutcome at hnone
        rw [hsp] at hnone
        cases hnone
    · intro hor
      have hzip : refs.zip preds = [] := List.zip_eq_nil_iff.mpr hor
      unfold rougeOutcome rougeScoredPairs
      rw [hzip]
      rfl
  · intro i x y hx hy
    have hz := zip_getElem? refs preds i x y hx hy
    simp [rougeScoredPairs, List.getElem?_map, hz]

theorem c10_rouge_zip_truncation_witness :
    (1 : Nat) ≤ 2
    ∧ rougeScoredPairs ["a b.".data] (["a b.".data, "zz".data] ++ ["c".data])
        = rougeScoredPairs ["a b.".data] ["a b.".data, "zz".data]
    ∧ (rougeScoredPairs ["a b.".data] ["a b.".data, "zz".data])[0]?
        = some (scorePair "a b.".data "a b.".data)
    ∧ (rougeScoredPairs ["a b.".data] ["a b.".data, "zz".data]).length = 1 :=
  ⟨by decide,
   (c10_rouge_zip_truncation ["a b.".data] ["a b.".data, "zz".data]).2.1 (by decide) ["c".data],
   (c10_rouge_zip_truncation ["a b.".data] ["a b.".data, "zz".data]).2.2.2.2 0
     "a b.".data "a b.".data rfl rfl,
   ((c10_rouge_zip_truncation ["a b.".data] ["a b.".data, "zz".data]).1).trans (by decide)⟩

/-- C10 counterexample: the lists `[]` and `["some prediction"]` have unequal
lengths, yet `rouge([], [pred])` zips to no pairs, so the aggregator receives
no scores and the final `result[type]` lookup raises (the `none` outcome):
the claim's "no error is raised when the lists have unequal lengths" fails
for an empty shorter list. -/
theorem c10_empty_side_counterexample :
    ([] : List Text).length ≠ ["some prediction".data].length
    ∧ rougeOutcome [] ["some prediction".data] = none :=
  ⟨by decide, rfl⟩
